import Mathlib

/-!
Shallow embedding of the ACE-scan log analyzer (`src/main.rs`) and proofs
about its parsing core.  Strings are modelled as `List Char`; Rust byte
indices become character indices, which preserves the structure of every
search, slice and split operation used by the program.
-/

/-- Convert a Lean string literal to the `List Char` representation used
throughout this development. -/
def strL (s : String) : List Char := s.toList

/-- Unicode `White_Space` predicate, mirroring Rust `char::is_whitespace`
(used by `str::trim` and `str::split_whitespace`). -/
def isWS (c : Char) : Bool :=
  (9 ≤ c.toNat && c.toNat ≤ 13) || c.toNat = 32 || c.toNat = 0x85 || c.toNat = 0xa0 ||
  c.toNat = 0x1680 || (0x2000 ≤ c.toNat && c.toNat ≤ 0x200a) || c.toNat = 0x2028 ||
  c.toNat = 0x2029 || c.toNat = 0x202f || c.toNat = 0x205f || c.toNat = 0x3000

/-- Rust `str::trim`: remove leading and trailing whitespace. -/
def trimL (l : List Char) : List Char :=
  ((l.dropWhile isWS).reverse.dropWhile isWS).reverse

/-- ASCII lowercasing of one character (the paths and markers matched by the
program are ASCII; mirrors Rust `to_lowercase` on them). -/
def toLowerC (c : Char) : Char :=
  if 65 ≤ c.toNat && c.toNat ≤ 90 then Char.ofNat (c.toNat + 32) else c

/-- Rust `str::to_lowercase` on the character list model. -/
def toLowerL (l : List Char) : List Char := l.map toLowerC

/-- Rust `str::find` for a string pattern: index of the first occurrence of
`pat` in `l` (`some 0` for the empty pattern, as in Rust). -/
def findSubstr (l pat : List Char) : Option Nat :=
  if pat.isPrefixOf l then some 0
  else
    match l with
    | [] => none
    | _ :: tl => (findSubstr tl pat).map (· + 1)

/-- Rust `str::contains` for a string pattern. -/
def containsS (l pat : List Char) : Bool := (findSubstr l pat).isSome

/-- Rust `Iterator::min` over a list of found offsets. -/
def minOff (l : List Nat) : Option Nat :=
  l.foldr (fun a acc => match acc with | none => some a | some b => some (Nat.min a b)) none

/-- The `value_end` computation of `extract_field` in `src/main.rs`
(lines 132-137): minimum first-occurrence offset of any terminator within
`text[vs..]`, shifted by `vs`, defaulting to the end of `text`. -/
def valueEnd (text : List Char) (vs : Nat) (terms : List (List Char)) : Nat :=
  match minOff (terms.filterMap (fun t => findSubstr (text.drop vs) t)) with
  | some pos => vs + pos
  | none => text.length

/-- `extract_field` from `src/main.rs` lines 125-145. -/
def extract_field (text pfx : List Char) (terms : List (List Char)) : Option (List Char) :=
  match findSubstr text pfx with
  | none => none
  | some start =>
    if text.length ≤ start + pfx.length then none
    else if valueEnd text (start + pfx.length) terms ≤ start + pfx.length then none
    else some ((text.take (valueEnd text (start + pfx.length) terms)).drop (start + pfx.length))

/-- Rust `str::split_whitespace`: maximal runs of non-whitespace characters. -/
def splitWS (l : List Char) : List (List Char) :=
  let p := l.foldr
    (fun c acc =>
      if isWS c then (if acc.2 = ([] : List Char) then acc.1 else acc.2 :: acc.1, ([] : List Char))
      else (acc.1, c :: acc.2))
    ([], [])
  if p.2 = ([] : List Char) then p.1 else p.2 :: p.1

/-- Rust `str::split` on a single character: always yields at least one
(possibly empty) segment. -/
def splitChar (c : Char) (l : List Char) : List (List Char) :=
  let p := l.foldr
    (fun x acc =>
      if x = c then (acc.2 :: acc.1, ([] : List Char)) else (acc.1, x :: acc.2))
    ([], [])
  p.2 :: p.1

/-- Strip one trailing carriage return (second half of Rust `str::lines`'s
per-line trimming). -/
def stripTrailingCR (l : List Char) : List Char :=
  if l.getLast? = some '\r' then l.dropLast else l

/-- Rust `str::lines().next()`: `none` on the empty string; otherwise the
text before the first newline, with a trailing `\r` stripped only when a
newline was actually present. -/
def firstLine (l : List Char) : Option (List Char) :=
  match l with
  | [] => none
  | _ :: _ =>
    if (l.takeWhile (fun c => c != '\n')).length < l.length
    then some (stripTrailingCR (l.takeWhile (fun c => c != '\n')))
    else some (l.takeWhile (fun c => c != '\n'))

/-- Rust `str::parse::<u32>`: optional leading `+`, then a non-empty
all-digit string whose value fits in 32 bits. -/
def parseU32 (s : List Char) : Option Nat :=
  match s with
  | '+' :: digs =>
    if digs = ([] : List Char) then none
    else if digs.all Char.isDigit then
      if digs.foldl (fun acc c => acc * 10 + (c.toNat - 48)) 0 < 4294967296
      then some (digs.foldl (fun acc c => acc * 10 + (c.toNat - 48)) 0)
      else none
    else none
  | digs =>
    if digs = ([] : List Char) then none
    else if digs.all Char.isDigit then
      if digs.foldl (fun acc c => acc * 10 + (c.toNat - 48)) 0 < 4294967296
      then some (digs.foldl (fun acc c => acc * 10 + (c.toNat - 48)) 0)
      else none
    else none

/-- `extract_hour` from `src/main.rs` lines 147-159. -/
def extract_hour (entry : List Char) : Option Nat :=
  match firstLine entry with
  | none => none
  | some fl =>
    match (splitWS fl).get? 1 with
    | none => none
    | some tok =>
      match parseU32 (tok.takeWhile (fun c => c != ':')) with
      | none => none
      | some h => if h < 24 then some h else none

/-- The category label computed by `categorize_target` in `src/main.rs`
lines 161-185 (the pure part, before the map update). -/
def categorize (file_path : List Char) : List Char :=
  if containsS (toLowerL file_path) (strL "system32\\drivers") ||
     containsS (toLowerL file_path) (strL "syswow64\\drivers") then strL "系统驱动"
  else if containsS (toLowerL file_path) (strL "system32") then strL "System32核心"
  else if containsS (toLowerL file_path) (strL "syswow64") then strL "SysWOW64(32位)"
  else if containsS (toLowerL file_path) (strL "microsoft.net") ||
          containsS (toLowerL file_path) (strL "dotnet") then strL ".NET组件"
  else if containsS (toLowerL file_path) (strL "anti cheat expert") ||
          containsS (toLowerL file_path) (strL "sguard") ||
          containsS (toLowerL file_path) (strL "ace") ||
          containsS (toLowerL file_path) (strL "eac") then strL "反作弊组件"
  else if containsS (toLowerL file_path) (strL "windows\\systemapps") ||
          containsS (toLowerL file_path) (strL "windowsapps") then strL "WindowsApps"
  else if containsS (toLowerL file_path) (strL "programdata") ||
          containsS (toLowerL file_path) (strL "appdata") then strL "用户数据目录"
  else if containsS (toLowerL file_path) (strL "windows\\winsxs") then strL "WinSxS组件存储"
  else strL "其他系统文件"

/-- Increment-or-insert-at-1 on an association-list model of the program's
`HashMap<String, usize>` / `BTreeMap<String, usize>` counters. -/
def bump : List (List Char × Nat) → List Char → List (List Char × Nat)
  | [], k => [(k, 1)]
  | (k', v) :: rest, k => if k' = k then (k', v + 1) :: rest else (k', v) :: bump rest k

/-- `categorize_target` from `src/main.rs` lines 161-188: compute the label
and bump its counter. -/
def categorize_target (file_path : List Char) (cats : List (List Char × Nat)) :
    List (List Char × Nat) :=
  bump cats (categorize file_path)

/-- The `AceScanStats` structure of `src/main.rs` lines 6-16, with the
string-keyed counter maps modelled as association lists. -/
structure AceScanStats where
  total_attempts : Nat
  blocked_attempts : Nat
  unique_files : List (List Char × Nat)
  processes : List (List Char × Nat)
  rules_triggered : List (List Char × Nat)
  file_extensions : List (List Char × Nat)
  target_categories : List (List Char × Nat)
  time_distribution : List (List Char × Nat)
deriving DecidableEq

/-- `AceScanStats::default()`. -/
def initStats : AceScanStats := ⟨0, 0, [], [], [], [], [], []⟩

/-- Terminator list for the file-path field (line 80). -/
def fileTerms : List (List Char) :=
  [strL "操作结果：", strL "操作类型：", strL "\r\n", strL "\n"]

/-- Terminator list for the process-path field (line 96). -/
def procTerms : List (List Char) :=
  [strL "操作进程命令行：", strL "操作类型：", strL "\r\n", strL "\n"]

/-- Terminator list for the rule-name field (line 105). -/
def ruleTerms : List (List Char) :=
  [strL "操作类型：", strL "\r\n", strL "\n"]

/-- Extension derivation of lines 85-89: `file_path.rsplit('.').next()`
lowercased, with the (dead, see `parse_noext_path_recorded`) fallback
sentinel `"无扩展名"`. -/
def extOfPath (fp : List Char) : List Char :=
  (((splitChar '.' fp).reverse.head?).map toLowerL).getD (strL "无扩展名")

/-- Process-name derivation of lines 97-101:
`proc_path.split('\\').last().map(trim)` with fallback `"unknown"`. -/
def procName (pp : List Char) : List Char :=
  (((splitChar '\\' pp).getLast?).map trimL).getD (strL "unknown")

/-- Lines 80-94: file-path extraction and the three map updates it drives.
The source bumps `unique_files`, `file_extensions` and `target_categories`
in sequence; the fields are disjoint, so one record update is equivalent. -/
def stepFile (s : AceScanStats) (entry : List Char) : AceScanStats :=
  match extract_field entry (strL "操作文件：") fileTerms with
  | none => s
  | some fp0 =>
    if trimL fp0 = ([] : List Char) then s
    else
      { s with
        unique_files := bump s.unique_files (trimL fp0),
        file_extensions := bump s.file_extensions (extOfPath (trimL fp0)),
        target_categories := categorize_target (trimL fp0) s.target_categories }

/-- Lines 96-103: process-path extraction and `processes` update. -/
def stepProc (s : AceScanStats) (entry : List Char) : AceScanStats :=
  match extract_field entry (strL "操作进程：") procTerms with
  | none => s
  | some pp => { s with processes := bump s.processes (procName pp) }

/-- Lines 105-110: rule-name extraction and `rules_triggered` update. -/
def stepRule (s : AceScanStats) (entry : List Char) : AceScanStats :=
  match extract_field entry (strL "触犯规则：") ruleTerms with
  | none => s
  | some rn =>
    if trimL rn = ([] : List Char) then s
    else { s with rules_triggered := bump s.rules_triggered (trimL rn) }

/-- Lines 112-114: blocked-result substring check. -/
def stepBlocked (s : AceScanStats) (entry : List Char) : AceScanStats :=
  if containsS entry (strL "操作结果：已阻止")
  then { s with blocked_attempts := s.blocked_attempts + 1 }
  else s

/-- Two right-aligned zero-padded decimal digits (Rust `format!("{:02}", h)`
for `h < 24`). -/
def twoDig (h : Nat) : List Char :=
  [Char.ofNat (48 + h / 10 % 10), Char.ofNat (48 + h % 10)]

/-- The hour bucket key of line 117: `"{:02}:00-{:02}:59"`. -/
def hourKey (h : Nat) : List Char :=
  twoDig h ++ strL ":00-" ++ twoDig h ++ strL ":59"

/-- Lines 116-119: hour extraction and `time_distribution` update. -/
def stepHour (s : AceScanStats) (entry : List Char) : AceScanStats :=
  match extract_hour entry with
  | none => s
  | some h => { s with time_distribution := bump s.time_distribution (hourKey h) }

/-- The body of the per-entry loop of `parse_ace_logs_precise`
(lines 77-120): increment `total_attempts`, then run the five independent
field updates in source order. -/
def processEntry (s : AceScanStats) (entry : List Char) : AceScanStats :=
  stepHour
    (stepBlocked
      (stepRule
        (stepProc
          (stepFile { s with total_attempts := s.total_attempts + 1 } entry)
          entry)
        entry)
      entry)
    entry

/-- The segment filter of line 74: non-blank and containing both the
product signature and the file-operation marker. -/
def validEntry (e : List Char) : Bool :=
  !(trimL e).isEmpty && containsS e (strL "SGuard") && containsS e (strL "操作文件：")

/-- The separator of line 73: sixty repeated `>` characters. -/
def sep60 : List Char := List.replicate 60 '>'

/-- Fuelled version of Rust `str::split` with a string pattern: leftmost
non-overlapping occurrences.  `splitOnSep` supplies fuel `l.length + 1`,
which is never exhausted for a non-empty separator (each step consumes at
least one character); `splitOnSepF_congr` below certifies this. -/
def splitOnSepF (sep : List Char) : Nat → List Char → List (List Char)
  | 0, l => [l]
  | fuel + 1, l =>
    match findSubstr l sep with
    | none => [l]
    | some p => l.take p :: splitOnSepF sep fuel (l.drop (p + sep.length))

/-- Rust `str::split` with a string pattern. -/
def splitOnSep (sep l : List Char) : List (List Char) :=
  splitOnSepF sep (l.length + 1) l

/-- `parse_ace_logs_precise` from `src/main.rs` lines 70-123: split on the
60-`>` separator, keep valid segments, and fold the per-entry update over
them starting from the default statistics. -/
def parse_ace_logs_precise (logs : List Char) : AceScanStats :=
  ((splitOnSep sep60 logs).filter validEntry).foldl processEntry initStats

/-- Key-goodness invariant used for the no-blank-key claims: every key of
the four maps that the program guards (directly or by construction) fails
`List.all isWS`, hence is neither empty nor all-whitespace. -/
def GoodStats (s : AceScanStats) : Prop :=
  (∀ k ∈ s.unique_files.map Prod.fst, k.all isWS = false) ∧
  (∀ k ∈ s.rules_triggered.map Prod.fst, k.all isWS = false) ∧
  (∀ k ∈ s.target_categories.map Prod.fst, k.all isWS = false) ∧
  (∀ k ∈ s.time_distribution.map Prod.fst, k.all isWS = false)

theorem findSubstr_some_prefix (pat l : List Char) :
    ∀ (p : Nat), findSubstr l pat = some p → pat.isPrefixOf (l.drop p) = true := by
  induction l with
  | nil =>
    intro p h
    simp only [findSubstr] at h
    split at h
    · next hp => injection h with h0; subst h0; simpa using hp
    · exact absurd h (by simp)
  | cons c tl ih =>
    intro p h
    simp only [findSubstr] at h
    split at h
    · next hp => injection h with h0; subst h0; simpa using hp
    · next hp =>
      rcases Option.map_eq_some'.mp h with ⟨p', hp', rfl⟩
      simpa using ih p' hp'

theorem findSubstr_le_length (pat l : List Char) :
    ∀ (p : Nat), findSubstr l pat = some p → p + pat.length ≤ l.length := by
  induction l with
  | nil =>
    intro p h
    simp only [findSubstr] at h
    split at h
    · next hp =>
      injection h with h0; subst h0
      have : pat <+: ([] : List Char) := List.isPrefixOf_iff_prefix.mp hp
      simpa using this.length_le
    · exact absurd h (by simp)
  | cons c tl ih =>
    intro p h
    simp only [findSubstr] at h
    split at h
    · next hp =>
      injection h with h0; subst h0
      have : pat <+: (c :: tl) := List.isPrefixOf_iff_prefix.mp hp
      simpa using this.length_le
    · next hp =>
      rcases Option.map_eq_some'.mp h with ⟨p', hp', rfl⟩
      have := ih p' hp'
      simp only [List.length_cons]
      omega

theorem findSubstr_min (pat l : List Char) :
    ∀ (p q : Nat), findSubstr l pat = some p → pat.isPrefixOf (l.drop q) = true → p ≤ q := by
  induction l with
  | nil =>
    intro p q h _
    simp only [findSubstr] at h
    split at h
    · injection h with h0; omega
    · exact absurd h (by simp)
  | cons c tl ih =>
    intro p q h hq
    simp only [findSubstr] at h
    split at h
    · injection h with h0; omega
    · next hp =>
      rcases Option.map_eq_some'.mp h with ⟨p', hp', rfl⟩
      cases q with
      | zero => rw [List.drop_zero] at hq; rw [hq] at hp; exact absurd rfl hp
      | succ q' =>
        have := ih p' q' hp' (by simpa using hq)
        omega

theorem findSubstr_isSome_of_prefix (pat l : List Char) :
    ∀ (q : Nat), pat.isPrefixOf (l.drop q) = true → (findSubstr l pat).isSome = true := by
  induction l with
  | nil =>
    intro q hq
    simp only [List.drop_nil] at hq
    simp [findSubstr, hq]
  | cons c tl ih =>
    intro q hq
    cases q with
    | zero =>
      rw [List.drop_zero] at hq
      simp [findSubstr, hq]
    | succ q' =>
      have := ih q' (by simpa using hq)
      simp only [findSubstr]
      split
      · simp
      · simpa using this

theorem findSubstr_nil_pat (l : List Char) : findSubstr l ([] : List Char) = some 0 := by
  cases l <;> simp [findSubstr, List.isPrefixOf]

theorem minOff_cons (a : Nat) (l : List Nat) :
    minOff (a :: l) = match minOff l with
      | none => some a
      | some b => some (Nat.min a b) := rfl

theorem minOff_eq_none_iff (l : List Nat) : minOff l = none ↔ l = [] := by
  cases l with
  | nil => simp [minOff]
  | cons a tl =>
    rw [minOff_cons]
    cases minOff tl <;> simp

theorem minOff_mem (l : List Nat) : ∀ (m : Nat), minOff l = some m → m ∈ l := by
  induction l with
  | nil => intro m h; simp [minOff] at h
  | cons a tl ih =>
    intro m h
    rw [minOff_cons] at h
    cases htl : minOff tl with
    | none => rw [htl] at h; injection h with h0; subst h0; exact List.mem_cons_self a tl
    | some b =>
      rw [htl] at h
      injection h with h0; subst h0
      rcases Nat.le_total a b with hab | hba
      · have hm : Nat.min a b = a := by show min a b = a; omega
        rw [hm]; exact List.mem_cons_self a tl
      · have hm : Nat.min a b = b := by show min a b = b; omega
        rw [hm]; exact List.mem_cons_of_mem a (ih b htl)

theorem minOff_le (l : List Nat) : ∀ (m : Nat), minOff l = some m → ∀ x ∈ l, m ≤ x := by
  induction l with
  | nil => intro m h; simp [minOff] at h
  | cons a tl ih =>
    intro m h x hx
    rw [minOff_cons] at h
    cases htl : minOff tl with
    | none =>
      rw [htl] at h
      injection h with h0; subst h0
      rcases List.mem_cons.mp hx with rfl | hx'
      · exact Nat.le_refl x
      · exact absurd ((minOff_eq_none_iff tl).mp htl ▸ hx') (by simp)
    | some b =>
      rw [htl] at h
      injection h with h0; subst h0
      rcases List.mem_cons.mp hx with rfl | hx'
      · show min x b ≤ x; omega
      · have := ih b htl x hx'
        show min a b ≤ x; omega

theorem minOff_perm (l l' : List Nat) (h : l.Perm l') : minOff l = minOff l' := by
  cases hl : minOff l with
  | none =>
    have : l = [] := (minOff_eq_none_iff l).mp hl
    subst this
    have : l' = [] := h.nil_eq.symm
    subst this
    rfl
  | some m =>
    cases hl' : minOff l' with
    | none =>
      have : l' = [] := (minOff_eq_none_iff l').mp hl'
      subst this
      have : l = [] := h.eq_nil
      subst this
      simp [minOff] at hl
    | some m' =>
      have h1 : m ≤ m' := minOff_le l m hl m' (h.mem_iff.mpr (minOff_mem l' m' hl'))
      have h2 : m' ≤ m := minOff_le l' m' hl' m (h.mem_iff.mp (minOff_mem l m hl))
      rw [Nat.le_antisymm h1 h2]

theorem dropWhile_head_false (p : Char → Bool) (l : List Char) :
    l.dropWhile p = [] ∨ ∃ a t, l.dropWhile p = a :: t ∧ p a = false := by
  induction l with
  | nil => left; rfl
  | cons c tl ih =>
    cases hc : p c with
    | true => simpa [List.dropWhile_cons, hc] using ih
    | false => right; exact ⟨c, tl, by simp [List.dropWhile_cons, hc], hc⟩

theorem trimL_all_ws (x : List Char) (h : (trimL x).all isWS = true) : trimL x = [] := by
  unfold trimL at h ⊢
  rcases dropWhile_head_false isWS ((x.dropWhile isWS).reverse) with h0 | ⟨a, t, heq, ha⟩
  · rw [h0]; rfl
  · rw [heq] at h
    simp only [List.all_reverse, List.all_cons, ha, Bool.false_and] at h
    exact Bool.noConfusion h

theorem trim_key_not_ws (x : List Char) (h : ¬ trimL x = []) : (trimL x).all isWS = false := by
  cases hq : (trimL x).all isWS with
  | false => rfl
  | true => exact absurd (trimL_all_ws x hq) h

theorem mem_keys_bump (m : List (List Char × Nat)) (key k : List Char)
    (h : k ∈ (bump m key).map Prod.fst) : k ∈ m.map Prod.fst ∨ k = key := by
  induction m with
  | nil =>
    simp [bump] at h
    right; exact h
  | cons kv tl ih =>
    rcases kv with ⟨k', v⟩
    by_cases hk : k' = key
    · simp only [bump, if_pos hk] at h
      left
      simpa using h
    · simp only [bump, if_neg hk, List.map_cons, List.mem_cons] at h
      rcases h with h | h
      · left; simp [h]
      · rcases ih h with h' | h'
        · left; simp [h']
        · right; exact h'

theorem categorize_all_ws (p : List Char) : (categorize p).all isWS = false := by
  unfold categorize
  split_ifs <;> decide

theorem hourKey_all_ws (h : Nat) : (hourKey h).all isWS = false := by
  have h4 : (strL ":00-").all isWS = false := by decide
  simp [hourKey, List.all_append, h4]

theorem stepFile_total (s : AceScanStats) (e : List Char) :
    (stepFile s e).total_attempts = s.total_attempts := by
  unfold stepFile
  split
  · rfl
  · split <;> rfl

theorem stepProc_total (s : AceScanStats) (e : List Char) :
    (stepProc s e).total_attempts = s.total_attempts := by
  unfold stepProc
  split <;> rfl

theorem stepRule_total (s : AceScanStats) (e : List Char) :
    (stepRule s e).total_attempts = s.total_attempts := by
  unfold stepRule
  split
  · rfl
  · split <;> rfl

theorem stepBlocked_total (s : AceScanStats) (e : List Char) :
    (stepBlocked s e).total_attempts = s.total_attempts := by
  unfold stepBlocked
  split <;> rfl

theorem stepHour_total (s : AceScanStats) (e : List Char) :
    (stepHour s e).total_attempts = s.total_attempts := by
  unfold stepHour
  split <;> rfl

theorem processEntry_total (s : AceScanStats) (e : List Char) :
    (processEntry s e).total_attempts = s.total_attempts + 1 := by
  unfold processEntry
  rw [stepHour_total, stepBlocked_total, stepRule_total, stepProc_total, stepFile_total]

theorem stepFile_blocked (s : AceScanStats) (e : List Char) :
    (stepFile s e).blocked_attempts = s.blocked_attempts := by
  unfold stepFile
  split
  · rfl
  · split <;> rfl

theorem stepProc_blocked (s : AceScanStats) (e : List Char) :
    (stepProc s e).blocked_attempts = s.blocked_attempts := by
  unfold stepProc
  split <;> rfl

theorem stepRule_blocked (s : AceScanStats) (e : List Char) :
    (stepRule s e).blocked_attempts = s.blocked_attempts := by
  unfold stepRule
  split
  · rfl
  · split <;> rfl

theorem stepHour_blocked (s : AceScanStats) (e : List Char) :
    (stepHour s e).blocked_attempts = s.blocked_attempts := by
  unfold stepHour
  split <;> rfl

theorem stepBlocked_blocked (s : AceScanStats) (e : List Char) :
    (stepBlocked s e).blocked_attempts
      = s.blocked_attempts + (if containsS e (strL "操作结果：已阻止") then 1 else 0) := by
  unfold stepBlocked
  split_ifs <;> simp

theorem processEntry_blocked (s : AceScanStats) (e : List Char) :
    (processEntry s e).blocked_attempts
      = s.blocked_attempts + (if containsS e (strL "操作结果：已阻止") then 1 else 0) := by
  unfold processEntry
  rw [stepHour_blocked, stepBlocked_blocked, stepRule_blocked, stepProc_blocked,
    stepFile_blocked]

theorem foldl_total (l : List (List Char)) (s : AceScanStats) :
    (l.foldl processEntry s).total_attempts = s.total_attempts + l.length := by
  induction l generalizing s with
  | nil => simp
  | cons e tl ih =>
    rw [List.foldl_cons, ih, processEntry_total, List.length_cons]
    omega

theorem foldl_blocked_le (l : List (List Char)) (s : AceScanStats)
    (h : s.blocked_attempts ≤ s.total_attempts) :
    (l.foldl processEntry s).blocked_attempts ≤ (l.foldl processEntry s).total_attempts := by
  induction l generalizing s with
  | nil => simpa using h
  | cons e tl ih =>
    rw [List.foldl_cons]
    apply ih
    rw [processEntry_blocked, processEntry_total]
    split_ifs <;> omega

theorem stepProc_good (s : AceScanStats) (e : List Char) (hs : GoodStats s) :
    GoodStats (stepProc s e) := by
  unfold stepProc
  split
  · exact hs
  · exact hs

theorem stepBlocked_good (s : AceScanStats) (e : List Char) (hs : GoodStats s) :
    GoodStats (stepBlocked s e) := by
  unfold stepBlocked
  split
  · exact hs
  · exact hs

theorem stepFile_good (s : AceScanStats) (e : List Char) (hs : GoodStats s) :
    GoodStats (stepFile s e) := by
  unfold GoodStats at hs ⊢
  unfold stepFile
  split
  · exact hs
  · next fp0 hfp =>
    split
    · exact hs
    · next hne =>
      refine ⟨?_, hs.2.1, ?_, hs.2.2.2⟩
      · intro k hk
        rcases mem_keys_bump s.unique_files (trimL fp0) k hk with h' | h'
        · exact hs.1 k h'
        · rw [h']; exact trim_key_not_ws fp0 hne
      · intro k hk
        rcases mem_keys_bump s.target_categories (categorize (trimL fp0)) k hk with h' | h'
        · exact hs.2.2.1 k h'
        · rw [h']; exact categorize_all_ws (trimL fp0)

theorem stepRule_good (s : AceScanStats) (e : List Char) (hs : GoodStats s) :
    GoodStats (stepRule s e) := by
  unfold GoodStats at hs ⊢
  unfold stepRule
  split
  · exact hs
  · next rn hrn =>
    split
    · exact hs
    · next hne =>
      refine ⟨hs.1, ?_, hs.2.2.1, hs.2.2.2⟩
      intro k hk
      rcases mem_keys_bump s.rules_triggered (trimL rn) k hk with h' | h'
      · exact hs.2.1 k h'
      · rw [h']; exact trim_key_not_ws rn hne

theorem stepHour_good (s : AceScanStats) (e : List Char) (hs : GoodStats s) :
    GoodStats (stepHour s e) := by
  unfold GoodStats at hs ⊢
  unfold stepHour
  split
  · exact hs
  · next h hh =>
    refine ⟨hs.1, hs.2.1, hs.2.2.1, ?_⟩
    intro k hk
    rcases mem_keys_bump s.time_distribution (hourKey h) k hk with h' | h'
    · exact hs.2.2.2 k h'
    · rw [h']; exact hourKey_all_ws h

theorem processEntry_good (s : AceScanStats) (e : List Char) (hs : GoodStats s) :
    GoodStats (processEntry s e) := by
  unfold processEntry
  apply stepHour_good
  apply stepBlocked_good
  apply stepRule_good
  apply stepProc_good
  apply stepFile_good
  exact hs

theorem initStats_good : GoodStats initStats := by
  unfold GoodStats
  refine ⟨?_, ?_, ?_, ?_⟩ <;> intro k hk <;> simp [initStats] at hk

theorem foldl_good (l : List (List Char)) (s : AceScanStats) (hs : GoodStats s) :
    GoodStats (l.foldl processEntry s) := by
  induction l generalizing s with
  | nil => simpa using hs
  | cons e tl ih =>
    rw [List.foldl_cons]
    exact ih (processEntry s e) (processEntry_good s e hs)

/-- C1: Field Extractor contract.  `extract_field` returns nothing when the
prefix is absent, or when the position immediately after the first prefix
occurrence is at or past the end of the text; otherwise the value ends at
the minimum first-occurrence offset of any terminator in the remainder (at
the end of the text when no terminator occurs), an empty span (minimum
offset zero) returns nothing, and otherwise the exact untrimmed substring
between `value_start` and `value_end` is returned; the spec's three
concrete examples are included. -/
theorem extract_field_contract :
    (∀ (text pfx : List Char) (terms : List (List Char)),
        findSubstr text pfx = none → extract_field text pfx terms = none)
  ∧ (∀ (text pfx : List Char) (terms : List (List Char)) (start : Nat),
        findSubstr text pfx = some start →
        text.length ≤ start + pfx.length →
        extract_field text pfx terms = none)
  ∧ (∀ (text pfx : List Char) (terms : List (List Char)) (start : Nat),
        findSubstr text pfx = some start →
        start + pfx.length < text.length →
        (∀ t ∈ terms, findSubstr (text.drop (start + pfx.length)) t = none) →
        extract_field text pfx terms = some (text.drop (start + pfx.length)))
  ∧ (∀ (text pfx : List Char) (terms : List (List Char)) (start m : Nat),
        findSubstr text pfx = some start →
        start + pfx.length < text.length →
        minOff (terms.filterMap
          (fun t => findSubstr (text.drop (start + pfx.length)) t)) = some m →
        ((m = 0 → extract_field text pfx terms = none)
         ∧ (0 < m → extract_field text pfx terms
              = some ((text.take (start + pfx.length + m)).drop (start + pfx.length)))
         ∧ (∃ t ∈ terms, findSubstr (text.drop (start + pfx.length)) t = some m)
         ∧ (∀ t ∈ terms, ∀ p, findSubstr (text.drop (start + pfx.length)) t = some p →
              m ≤ p)))
  ∧ extract_field (strL "P:abcXdef") (strL "P:") [strL "X", strL "Y"] = some (strL "abc")
  ∧ extract_field (strL "P:") (strL "P:") [strL "X", strL "Y"] = none
  ∧ extract_field (strL "P:abc") (strL "P:") [strL "X", strL "Y"] = some (strL "abc") := by
  refine ⟨?_, ?_, ?_, ?_, by decide, by decide, by decide⟩
  · intro text pfx terms h
    unfold extract_field
    rw [h]
  · intro text pfx terms start h h2
    simp only [extract_field, h]
    rw [if_pos h2]
  · intro text pfx terms start h h2 h3
    have hfm : terms.filterMap
        (fun t => findSubstr (text.drop (start + pfx.length)) t) = [] :=
      List.filterMap_eq_nil_iff.mpr h3
    have hve : valueEnd text (start + pfx.length) terms = text.length := by
      unfold valueEnd
      rw [hfm]
      rfl
    simp only [extract_field, h]
    rw [if_neg (by omega : ¬ text.length ≤ start + pfx.length), hve,
      if_neg (by omega : ¬ text.length ≤ start + pfx.length), List.take_length]
  · intro text pfx terms start m h h2 hm
    have hve : valueEnd text (start + pfx.length) terms = start + pfx.length + m := by
      unfold valueEnd
      rw [hm]
    refine ⟨?_, ?_, ?_, ?_⟩
    · intro h0
      subst h0
      simp only [extract_field, h]
      rw [if_neg (by omega : ¬ text.length ≤ start + pfx.length), hve,
        if_pos (by omega : start + pfx.length + 0 ≤ start + pfx.length)]
    · intro h0
      simp only [extract_field, h]
      rw [if_neg (by omega : ¬ text.length ≤ start + pfx.length), hve,
        if_neg (by omega : ¬ start + pfx.length + m ≤ start + pfx.length)]
    · exact List.mem_filterMap.mp (minOff_mem _ m hm)
    · intro t ht p hp
      exact minOff_le _ m hm p (List.mem_filterMap.mpr ⟨t, ht, hp⟩)

theorem extract_field_contract_witness :
    extract_field (strL "P:") (strL "P:") [strL "X", strL "Y"] = none :=
  extract_field_contract.2.1 (strL "P:") (strL "P:") [strL "X", strL "Y"] 0
    (by decide) (by decide)

/-- C4: segmentation and filtering.  `parse_ace_logs_precise` splits on
exactly sixty repeated `>` characters; a segment that is blank or lacks the
`SGuard` signature or the `操作文件：` marker is dropped by the filter and
contributes nothing (including to `total_attempts`); every surviving
segment increments `total_attempts` by exactly one, so `total_attempts`
equals the number of surviving segments. -/
theorem parse_segmentation :
    (∀ logs, parse_ace_logs_precise logs
        = ((splitOnSep (List.replicate 60 '>') logs).filter validEntry).foldl
            processEntry initStats)
  ∧ (∀ e, validEntry e
        = (!(trimL e).isEmpty && containsS e (strL "SGuard") &&
            containsS e (strL "操作文件：")))
  ∧ (∀ (pre post : List (List Char)) (e : List Char), validEntry e = false →
        (pre ++ e :: post).filter validEntry = (pre ++ post).filter validEntry)
  ∧ (∀ (s : AceScanStats) (e : List Char),
        (processEntry s e).total_attempts = s.total_attempts + 1)
  ∧ (∀ logs, (parse_ace_logs_precise logs).total_attempts
        = ((splitOnSep sep60 logs).filter validEntry).length) := by
  refine ⟨fun logs => rfl, fun e => rfl, ?_, processEntry_total, ?_⟩
  · intro pre post e he
    simp [List.filter_append, List.filter_cons, he]
  · intro logs
    unfold parse_ace_logs_precise
    rw [foldl_total]
    simp [initStats]

theorem parse_segmentation_witness :
    List.filter validEntry ([] ++ strL "hello" :: []) = List.filter validEntry ([] ++ []) :=
  parse_segmentation.2.2.1 [] [] (strL "hello") (by decide)

/-- C7: for every input text, the statistics returned by the parser satisfy
`blocked_attempts ≤ total_attempts`. -/
theorem blocked_le_total (logs : List Char) :
    (parse_ace_logs_precise logs).blocked_attempts
      ≤ (parse_ace_logs_precise logs).total_attempts := by
  unfold parse_ace_logs_precise
  exact foldl_blocked_le _ initStats (Nat.le_refl 0)

/-- C8: `extract_field` is terminator-order independent: permuting the
terminator list never changes the result, because only the minimum
first-occurrence offset over the list is used. -/
theorem extract_field_perm_invariant (text pfx : List Char)
    (terms terms2 : List (List Char)) (h : terms.Perm terms2) :
    extract_field text pfx terms = extract_field text pfx terms2 := by
  have hv : ∀ vs, valueEnd text vs terms = valueEnd text vs terms2 := by
    intro vs
    unfold valueEnd
    rw [minOff_perm _ _ (h.filterMap (fun t => findSubstr (text.drop vs) t))]
  cases hf : findSubstr text pfx with
  | none => simp only [extract_field, hf]
  | some start =>
    simp only [extract_field, hf]
    rw [hv]

theorem extract_field_perm_invariant_witness :
    extract_field (strL "P:abcXdef") (strL "P:") [strL "Y", strL "X"]
      = extract_field (strL "P:abcXdef") (strL "P:") [strL "X", strL "Y"] :=
  extract_field_perm_invariant (strL "P:abcXdef") (strL "P:") [strL "Y", strL "X"]
    [strL "X", strL "Y"] (List.Perm.swap (strL "X") (strL "Y") [])

/-- C5: Hour Extractor contract.  `extract_hour` takes the first line, its
second whitespace token, that token's first `:`-separated component, parses
it as an unsigned integer and keeps it only when it is below 24; an entry
with no first line, or a first line with fewer than two whitespace tokens,
yields nothing; the spec's three concrete examples are included. -/
theorem extract_hour_contract :
    (∀ (e : List Char) (hr : Nat), extract_hour e = some hr → hr < 24)
  ∧ (∀ e : List Char, firstLine e = none → extract_hour e = none)
  ∧ (∀ (e fl : List Char), firstLine e = some fl → (splitWS fl).length ≤ 1 →
        extract_hour e = none)
  ∧ (∀ (e fl tok : List Char), firstLine e = some fl → (splitWS fl).get? 1 = some tok →
        extract_hour e = (parseU32 (tok.takeWhile (fun c => c != ':'))).bind
          (fun n => if n < 24 then some n else none))
  ∧ extract_hour (strL "2024-01-01 05:23:11 extra") = some 5
  ∧ extract_hour (strL "2024-01-01 25:00:00") = none
  ∧ extract_hour (strL "oneToken") = none := by
  refine ⟨?_, ?_, ?_, ?_, by decide, by decide, by decide⟩
  · intro e hr hh
    unfold extract_hour at hh
    split at hh
    · exact absurd hh (by simp)
    · split at hh
      · exact absurd hh (by simp)
      · split at hh
        · exact absurd hh (by simp)
        · split at hh
          · next hlt => injection hh with h0; subst h0; exact hlt
          · exact absurd hh (by simp)
  · intro e h
    simp [extract_hour, h]
  · intro e fl hfl hlen
    have h2 : (splitWS fl).get? 1 = none := List.get?_eq_none.mpr hlen
    simp only [extract_hour, hfl, h2]
  · intro e fl tok hfl htok
    simp only [extract_hour, hfl, htok]
    cases hp : parseU32 (tok.takeWhile (fun c => c != ':')) with
    | none => simp
    | some n => simp

theorem extract_hour_contract_witness :
    extract_hour (strL "oneToken") = none :=
  extract_hour_contract.2.2.1 (strL "oneToken") (strL "oneToken") (by decide) (by decide)

/-- C6: the Path Categorizer is total and deterministic: being a pure
function of its input it always yields the same label for the same path,
every path maps to exactly one of the nine fixed labels, and the priority
order is respected: a path containing a drivers-directory marker is
assigned the System Driver label (`系统驱动`), which is distinct from the
System32 Core label (`System32核心`). -/
theorem categorize_contract :
    (∀ p : List Char, categorize p ∈
        [strL "系统驱动", strL "System32核心", strL "SysWOW64(32位)", strL ".NET组件",
         strL "反作弊组件", strL "WindowsApps", strL "用户数据目录",
         strL "WinSxS组件存储", strL "其他系统文件"])
  ∧ (∀ p : List Char, (containsS (toLowerL p) (strL "system32\\drivers") ||
        containsS (toLowerL p) (strL "syswow64\\drivers")) = true →
        categorize p = strL "系统驱动")
  ∧ (strL "系统驱动" == strL "System32核心") = false := by
  refine ⟨?_, ?_, by decide⟩
  · intro p
    unfold categorize
    split_ifs <;> decide
  · intro p hp
    unfold categorize
    rw [if_pos hp]

theorem categorize_contract_witness :
    categorize (strL "C:\\Windows\\System32\\drivers\\storqosflt.sys") = strL "系统驱动" :=
  categorize_contract.2.1 (strL "C:\\Windows\\System32\\drivers\\storqosflt.sys") (by decide)

/-- C10: the `unknown` fallback of the process-name derivation (line 101)
is unreachable: splitting any string on backslash yields at least one
(possibly empty) segment, so `procName` always equals the trimmed last
segment and the fallback branch never supplies the key. -/
theorem unknown_fallback_unreachable :
    (∀ pp : List Char, 1 ≤ (splitChar '\\' pp).length)
  ∧ (∀ pp : List Char, ∃ seg, (splitChar '\\' pp).getLast? = some seg
        ∧ procName pp = trimL seg) := by
  constructor
  · intro pp
    unfold splitChar
    simp
  · intro pp
    have hne : splitChar '\\' pp ≠ [] := by unfold splitChar; simp
    rcases Option.isSome_iff_exists.mp (List.getLast?_isSome.mpr hne) with ⟨seg, hseg⟩
    refine ⟨seg, hseg, ?_⟩
    unfold procName
    rw [hseg]
    rfl

/-- C9: whenever `extract_field` returns a value, that value is non-empty
and contains no occurrence of any terminator from the supplied list as a
substring: the span is cut at the earliest terminator occurrence, so no
complete occurrence fits inside it. -/
theorem extract_field_value_avoids_terminators (text pfx : List Char)
    (terms : List (List Char)) (v : List Char)
    (h : extract_field text pfx terms = some v) :
    v.isEmpty = false ∧ ∀ t ∈ terms, containsS v t = false := by
  cases hf : findSubstr text pfx with
  | none =>
    simp only [extract_field, hf] at h
    exact absurd h (by simp)
  | some start =>
    simp only [extract_field, hf] at h
    split at h
    · exact absurd h (by simp)
    · next h1 =>
      split at h
      · exact absurd h (by simp)
      · next h2 =>
        injection h with hv
        have hdt : v = (text.drop (start + pfx.length)).take
            (valueEnd text (start + pfx.length) terms - (start + pfx.length)) := by
          rw [← hv, List.drop_take]
        constructor
        · have hlen : 0 < v.length := by
            rw [hdt, List.length_take, List.length_drop, lt_min_iff]
            constructor <;> omega
          cases v with
          | nil => simp at hlen
          | cons a tl => rfl
        · intro t ht
          cases hc : containsS v t with
          | false => rfl
          | true =>
            exfalso
            unfold containsS at hc
            rcases Option.isSome_iff_exists.mp hc with ⟨q, hq⟩
            have hqpre : t.isPrefixOf (v.drop q) = true := findSubstr_some_prefix t v q hq
            have hqlen : q + t.length ≤ v.length := findSubstr_le_length t v q hq
            have hpre2 : t.isPrefixOf ((text.drop (start + pfx.length)).drop q) = true := by
              rw [hdt, List.drop_take] at hqpre
              have ha : t <+: ((text.drop (start + pfx.length)).drop q).take
                  (valueEnd text (start + pfx.length) terms - (start + pfx.length) - q) :=
                List.isPrefixOf_iff_prefix.mp hqpre
              exact List.isPrefixOf_iff_prefix.mpr
                (ha.trans (List.take_prefix _ _))
            have hsome := findSubstr_isSome_of_prefix t
              (text.drop (start + pfx.length)) q hpre2
            rcases Option.isSome_iff_exists.mp hsome with ⟨p, hp⟩
            have hple : p ≤ q := findSubstr_min t (text.drop (start + pfx.length)) p q hp hpre2
            have hpmem : p ∈ terms.filterMap
                (fun t' => findSubstr (text.drop (start + pfx.length)) t') :=
              List.mem_filterMap.mpr ⟨t, ht, hp⟩
            cases hmo : minOff (terms.filterMap
                (fun t' => findSubstr (text.drop (start + pfx.length)) t')) with
            | none =>
              rw [(minOff_eq_none_iff _).mp hmo] at hpmem
              simp at hpmem
            | some m =>
              have hmle : m ≤ p := minOff_le _ m hmo p hpmem
              have hveq : valueEnd text (start + pfx.length) terms
                  = start + pfx.length + m := by
                unfold valueEnd
                rw [hmo]
              have hm0 : 0 < m := by
                rw [hveq] at h2
                omega
              have hvlen : v.length ≤ m := by
                rw [hdt, List.length_take, hveq]
                have h5 : start + pfx.length + m - (start + pfx.length) = m := by omega
                rw [h5]
                exact min_le_left _ _
              have htl : t.length = 0 := by omega
              have ht0 : t = [] := List.length_eq_zero.mp htl
              subst ht0
              rw [findSubstr_nil_pat] at hp
              injection hp with hp0
              omega

theorem extract_field_value_avoids_terminators_witness :
    containsS (strL "abc") (strL "X") = false :=
  (extract_field_value_avoids_terminators (strL "P:abcXdef") (strL "P:")
    [strL "X", strL "Y"] (strL "abc") (by decide)).2 (strL "X") (by decide)

/-- C2 (code-bug evidence): for the entry `SGuard操作文件：NOEXT`, whose
file path `NOEXT` contains no `.`, the parser records the whole lowercased
path (`noext`) in `file_extensions` and never the `无扩展名` sentinel; the
sentinel branch of lines 85-89 is dead because `rsplit('.').next()`
(modelled by `(splitChar '.' fp).reverse.head?`) always yields a segment. -/
theorem parse_noext_path_recorded :
    (parse_ace_logs_precise (strL "SGuard操作文件：NOEXT")).file_extensions
        = [(strL "noext", 1)]
    ∧ ((parse_ace_logs_precise (strL "SGuard操作文件：NOEXT")).file_extensions.map
        Prod.fst).contains (strL "无扩展名") = false
    ∧ (∀ fp : List Char, ((splitChar '.' fp).reverse.head?).isSome = true) := by
  refine ⟨by decide, by decide, ?_⟩
  intro fp
  have hne : splitChar '.' fp ≠ [] := by unfold splitChar; simp
  simp [List.head?_isSome, hne]

/-- C3 counterexample: on the single entry
`SGuard操作文件：a.\n操作进程：x\\\n` the extracted process path `x\\` ends
in a backslash, so its last backslash-separated segment trims to the empty
string and `processes` receives the empty-string key; likewise the file
path `a.` ends in a dot, so `file_extensions` receives the empty-string
key.  This refutes the claim that no mapping contains an empty or
all-whitespace key. -/
theorem parse_blank_key_cex :
    ([] : List Char) ∈ (parse_ace_logs_precise
        (strL "SGuard操作文件：a.\n操作进程：x\\\n")).processes.map Prod.fst
    ∧ ([] : List Char) ∈ (parse_ace_logs_precise
        (strL "SGuard操作文件：a.\n操作进程：x\\\n")).file_extensions.map Prod.fst := by
  constructor <;> decide

/-- C3 (amended): for every input text, the four mappings `unique_files`,
`rules_triggered`, `target_categories` and `time_distribution` of the
parsed statistics contain no empty-string and no all-whitespace key
(`List.all isWS` is `true` exactly on such keys); the `processes` and
`file_extensions` mappings are excluded because they can receive the
empty-string key (see the counterexample). -/
theorem parse_no_blank_keys (logs : List Char) :
    (∀ k ∈ (parse_ace_logs_precise logs).unique_files.map Prod.fst,
        k.all isWS = false)
  ∧ (∀ k ∈ (parse_ace_logs_precise logs).rules_triggered.map Prod.fst,
        k.all isWS = false)
  ∧ (∀ k ∈ (parse_ace_logs_precise logs).target_categories.map Prod.fst,
        k.all isWS = false)
  ∧ (∀ k ∈ (parse_ace_logs_precise logs).time_distribution.map Prod.fst,
        k.all isWS = false) := by
  have hg : GoodStats (parse_ace_logs_precise logs) := by
    unfold parse_ace_logs_precise
    exact foldl_good _ initStats initStats_good
  exact hg

theorem parse_no_blank_keys_witness :
    (strL "a.b").all isWS = false :=
  (parse_no_blank_keys (strL "SGuard操作文件：a.b")).1 (strL "a.b") (by decide)

theorem splitOnSepF_congr (sep : List Char) (hsep : sep ≠ []) :
    ∀ (fuel fuel' : Nat) (l : List Char), l.length < fuel → l.length < fuel' →
      splitOnSepF sep fuel l = splitOnSepF sep fuel' l := by
  intro fuel
  induction fuel with
  | zero => intro fuel' l h _; omega
  | succ f ih =>
    intro fuel' l h h'
    cases fuel' with
    | zero => omega
    | succ f' =>
      simp only [splitOnSepF]
      cases hf : findSubstr l sep with
      | none => rfl
      | some p =>
        have hb := findSubstr_le_length sep l p hf
        have hs : 1 ≤ sep.length := List.length_pos.mpr hsep
        have hd : (l.drop (p + sep.length)).length < f := by
          rw [List.length_drop]
          omega
        have hd' : (l.drop (p + sep.length)).length < f' := by
          rw [List.length_drop]
          omega
        show l.take p :: splitOnSepF sep f (l.drop (p + sep.length))
            = l.take p :: splitOnSepF sep f' (l.drop (p + sep.length))
        rw [ih f' (l.drop (p + sep.length)) hd hd']

theorem splitOnSep_eq (sep l : List Char) (hsep : sep ≠ []) :
    splitOnSep sep l = match findSubstr l sep with
      | none => [l]
      | some p => l.take p :: splitOnSep sep (l.drop (p + sep.length)) := by
  cases hf : findSubstr l sep with
  | none =>
    show splitOnSepF sep (l.length + 1) l = [l]
    simp only [splitOnSepF]
    rw [hf]
  | some p =>
    have hb := findSubstr_le_length sep l p hf
    have hs : 1 ≤ sep.length := List.length_pos.mpr hsep
    have e2 : splitOnSepF sep (l.length + 1) l
        = l.take p :: splitOnSepF sep l.length (l.drop (p + sep.length)) := by
      simp only [splitOnSepF]
      rw [hf]
    show splitOnSepF sep (l.length + 1) l
        = l.take p :: splitOnSep sep (l.drop (p + sep.length))
    rw [e2]
    unfold splitOnSep
    rw [splitOnSepF_congr sep hsep l.length ((l.drop (p + sep.length)).length + 1)
      (l.drop (p + sep.length)) (by rw [List.length_drop]; omega) (by omega)]
